import Mathlib

/-!
Shallow embedding of src/consumers/project_consumer_joannafarris.py.

The script tails a newline-delimited JSON file, keeps an in-memory tally
keyword mentions per author, assigns each keyword a palette color and a
rank at first sight, and redraws a stacked bar chart after every record.

Modelling conventions:
* Decoded JSON values are `JValue`.  JSON numbers are modelled as `Int`
  (the claims only exercise integer values such as `0`).  A decoded JSON
  object carries its key/value pairs in insertion order with distinct keys,
  as `json.loads` produces.
* Python dicts are association lists in insertion order; `dictSet` models
  `d[k] = v` (replace in place, or append when the key is new), matching
  dict insertion-order semantics.
* An input line is modelled by its decode result: `Line.malformed` for a
  line on which `json.loads` raises `JSONDecodeError`, `Line.json v` for a
  line decoding to the value `v`.
* Python exceptions that escape `process_message` are modelled by `PyErr`;
  mutations performed before the raise point are kept, as for Python
  globals.  `.get` on a non-dict raises `AttributeError`; using an
  unhashable value (list/dict) as a dict key raises `TypeError`; `sorted`
  on pairwise-incomparable values raises `TypeError`.
* Matplotlib calls are modelled by the `Render` value they would draw
  (axis order, stack order, bar heights, legend order); pure drawing,
  printing and logging have no bearing on the claims.
-/

/-- A decoded JSON value (result of `json.loads`). -/
inductive JValue where
  | null : JValue
  | bool : Bool → JValue
  | num : Int → JValue
  | str : String → JValue
  | arr : List JValue → JValue
  | obj : List (String × JValue) → JValue

mutual

/-- Boolean equality on decoded JSON values. -/
def JValue.beq : JValue → JValue → Bool
  | .null, .null => true
  | .bool a, .bool b => a == b
  | .num a, .num b => a == b
  | .str a, .str b => a == b
  | .arr as, .arr bs => JValue.beqList as bs
  | .obj as, .obj bs => JValue.beqObj as bs
  | _, _ => false

/-- Boolean equality on lists of decoded JSON values. -/
def JValue.beqList : List JValue → List JValue → Bool
  | [], [] => true
  | a :: as, b :: bs => JValue.beq a b && JValue.beqList as bs
  | _, _ => false

/-- Boolean equality on key/value pair lists of decoded JSON objects. -/
def JValue.beqObj : List (String × JValue) → List (String × JValue) → Bool
  | [], [] => true
  | (ka, va) :: as, (kb, vb) :: bs =>
      ka == kb && JValue.beq va vb && JValue.beqObj as bs
  | _, _ => false

end

instance : BEq JValue := ⟨JValue.beq⟩

mutual

theorem JValue.beq_refl : ∀ a : JValue, JValue.beq a a = true
  | .null => rfl
  | .bool b => by simp [JValue.beq]
  | .num n => by simp [JValue.beq]
  | .str s => by simp [JValue.beq]
  | .arr as => by simpa [JValue.beq] using JValue.beqList_refl as
  | .obj as => by simpa [JValue.beq] using JValue.beqObj_refl as

theorem JValue.beqList_refl : ∀ as : List JValue, JValue.beqList as as = true
  | [] => rfl
  | a :: as => by
      simp only [JValue.beqList, Bool.and_eq_true]
      exact ⟨JValue.beq_refl a, JValue.beqList_refl as⟩

theorem JValue.beqObj_refl :
    ∀ as : List (String × JValue), JValue.beqObj as as = true
  | [] => rfl
  | (k, v) :: as => by
      simp only [JValue.beqObj, Bool.and_eq_true]
      exact ⟨⟨by simp, JValue.beq_refl v⟩, JValue.beqObj_refl as⟩

end

mutual

theorem JValue.eq_of_beq : ∀ a b : JValue, JValue.beq a b = true → a = b
  | .null, .null, _ => rfl
  | .bool a, .bool b, h => by simpa [JValue.beq] using h
  | .num a, .num b, h => by simpa [JValue.beq] using h
  | .str a, .str b, h => by simpa [JValue.beq] using h
  | .arr as, .arr bs, h => by
      have := JValue.eqList_of_beq as bs (by simpa [JValue.beq] using h)
      simp [this]
  | .obj as, .obj bs, h => by
      have := JValue.eqObj_of_beq as bs (by simpa [JValue.beq] using h)
      simp [this]
  | .null, .bool _, h => by simp [JValue.beq] at h
  | .null, .num _, h => by simp [JValue.beq] at h
  | .null, .str _, h => by simp [JValue.beq] at h
  | .null, .arr _, h => by simp [JValue.beq] at h
  | .null, .obj _, h => by simp [JValue.beq] at h
  | .bool _, .null, h => by simp [JValue.beq] at h
  | .bool _, .num _, h => by simp [JValue.beq] at h
  | .bool _, .str _, h => by simp [JValue.beq] at h
  | .bool _, .arr _, h => by simp [JValue.beq] at h
  | .bool _, .obj _, h => by simp [JValue.beq] at h
  | .num _, .null, h => by simp [JValue.beq] at h
  | .num _, .bool _, h => by simp [JValue.beq] at h
  | .num _, .str _, h => by simp [JValue.beq] at h
  | .num _, .arr _, h => by simp [JValue.beq] at h
  | .num _, .obj _, h => by simp [JValue.beq] at h
  | .str _, .null, h => by simp [JValue.beq] at h
  | .str _, .bool _, h => by simp [JValue.beq] at h
  | .str _, .num _, h => by simp [JValue.beq] at h
  | .str _, .arr _, h => by simp [JValue.beq] at h
  | .str _, .obj _, h => by simp [JValue.beq] at h
  | .arr _, .null, h => by simp [JValue.beq] at h
  | .arr _, .bool _, h => by simp [JValue.beq] at h
  | .arr _, .num _, h => by simp [JValue.beq] at h
  | .arr _, .str _, h => by simp [JValue.beq] at h
  | .arr _, .obj _, h => by simp [JValue.beq] at h
  | .obj _, .null, h => by simp [JValue.beq] at h
  | .obj _, .bool _, h => by simp [JValue.beq] at h
  | .obj _, .num _, h => by simp [JValue.beq] at h
  | .obj _, .str _, h => by simp [JValue.beq] at h
  | .obj _, .arr _, h => by simp [JValue.beq] at h

theorem JValue.eqList_of_beq :
    ∀ as bs : List JValue, JValue.beqList as bs = true → as = bs
  | [], [], _ => rfl
  | a :: as, b :: bs, h => by
      simp only [JValue.beqList, Bool.and_eq_true] at h
      have h1 := JValue.eq_of_beq a b h.1
      have h2 := JValue.eqList_of_beq as bs h.2
      simp [h1, h2]
  | [], _ :: _, h => by simp [JValue.beqList] at h
  | _ :: _, [], h => by simp [JValue.beqList] at h

theorem JValue.eqObj_of_beq :
    ∀ as bs : List (String × JValue), JValue.beqObj as bs = true → as = bs
  | [], [], _ => rfl
  | (ka, va) :: as, (kb, vb) :: bs, h => by
      simp only [JValue.beqObj, Bool.and_eq_true] at h
      have h1 := h.1.1
      have h2 := JValue.eq_of_beq va vb h.1.2
      have h3 := JValue.eqObj_of_beq as bs h.2
      simp_all
  | [], _ :: _, h => by simp [JValue.beqObj] at h
  | _ :: _, [], h => by simp [JValue.beqObj] at h

end

instance : LawfulBEq JValue where
  eq_of_beq h := JValue.eq_of_beq _ _ h
  rfl := JValue.beq_refl _

instance : DecidableEq JValue := fun a b =>
  decidable_of_iff (JValue.beq a b = true)
    ⟨JValue.eq_of_beq a b, fun h => h ▸ JValue.beq_refl a⟩

/-- Python truthiness of a decoded JSON value, as used by
`message_dict.get("keyword_mentioned") or "(none)"`. -/
def truthy : JValue → Bool
  | .null => false
  | .bool b => b
  | .num n => n != 0
  | .str s => s != ""
  | .arr l => !l.isEmpty
  | .obj l => !l.isEmpty

/-- Whether a decoded JSON value is hashable in Python (usable as a dict
key).  Lists and dicts are unhashable. -/
def hashable : JValue → Bool
  | .arr _ => false
  | .obj _ => false
  | _ => true

/-- Python `d[k] = v` on an insertion-ordered dict: replace the value at
the first occurrence of `k`, or append `(k, v)` when `k` is absent. -/
def dictSet {α β : Type} [BEq α] : List (α × β) → α → β → List (α × β)
  | [], k, v => [(k, v)]
  | p :: rest, k, v =>
      if p.1 == k then (k, v) :: rest else p :: dictSet rest k v

/-- The fixed 9-entry warm palette (`PALETTE` in the source). -/
def PALETTE : List String :=
  [ "#134E6F",
    "#134D6FC7",
    "#6064A8",
    "#6064A8C1",
    "#C85C9FB2",
    "#E76F6A",
    "#E76E6AB4",
    "#F2B24D",
    "#F2B34D84" ]

/-- The color-assignment globals: `keyword_color` (kw → hex color) and
`assign_rank` (kw → 0,1,2,… in palette order). -/
structure ColorState where
  keyword_color : List (JValue × String)
  assign_rank : List (JValue × Nat)
deriving DecidableEq

/-- `color_for(kw)`: assign a color the first time we see `kw`, recording
its palette order; return the assigned color and the updated globals. -/
def color_for (kw : JValue) (cs : ColorState) : String × ColorState :=
  match cs.keyword_color.lookup kw with
  | some c => (c, cs)
  | none =>
      let idx := cs.keyword_color.length
      let c := PALETTE.getD (idx % PALETTE.length) ""
      (c, ⟨cs.keyword_color ++ [(kw, c)],
           cs.assign_rank ++ [(kw, cs.assign_rank.length)]⟩)

/-- Legend order control in the source: `LEGEND_TOP_FIRST = True`. -/
def LEGEND_TOP_FIRST : Bool := true

/-- The whole mutable global state: `keyword_counts_by_author`
(author → keyword → count, a two-level insertion-ordered dict) plus the
color-assignment globals. -/
structure AppState where
  keyword_counts_by_author : List (JValue × List (JValue × Nat))
  colors : ColorState
deriving DecidableEq

/-- The initial state: all three dicts empty. -/
def initState : AppState := ⟨[], ⟨[], []⟩⟩

/-- The count stored under `(author, keyword)`; 0 when absent. -/
def countIn (s : AppState) (a k : JValue) : Nat :=
  (((s.keyword_counts_by_author.lookup a).getD []).lookup k).getD 0

/-- Whether the pair `(author, keyword)` is present in the aggregate
state (an inner entry exists, whatever its value). -/
def presentIn (s : AppState) (a k : JValue) : Bool :=
  (((s.keyword_counts_by_author.lookup a).getD []).lookup k).isSome

/-- `keyword_counts_by_author[author][keyword] += 1`: the outer defaultdict
creates the inner dict when `author` is new, the inner defaultdict treats a
missing `keyword` as 0. -/
def bumpCounts (c : List (JValue × List (JValue × Nat))) (a k : JValue) :
    List (JValue × List (JValue × Nat)) :=
  let inner := (c.lookup a).getD []
  dictSet c a (dictSet inner k (((inner.lookup k).getD 0) + 1))

/-- The string content of a JValue, when it is a string. -/
def strVal : JValue → Option String
  | .str s => some s
  | _ => none

/-- The numeric value Python comparison uses, when the value is a number
or a bool (bools compare as 0/1). -/
def numVal : JValue → Option Int
  | .bool b => some (if b then 1 else 0)
  | .num n => some n
  | _ => none

/-- Lexicographic order on code-point lists: how Python compares two
strings. -/
def charListLe : List Char → List Char → Bool
  | [], _ => true
  | _ :: _, [] => false
  | a :: as, b :: bs =>
      if a.val.toNat < b.val.toNat then true
      else if b.val.toNat < a.val.toNat then false
      else charListLe as bs

/-- Python `<=` on strings: lexicographic comparison of code points. -/
def strLe (a b : String) : Bool := charListLe a.data b.data

/-- Python `sorted` on a list of decoded values, as applied to the author
keys.  Lists of length ≤ 1 need no comparison; all-string lists sort
lexicographically; all-numeric lists (numbers and bools) sort by value
(stably); any other mix makes the sort compare incomparable values and
raise `TypeError`, modelled as `none`. -/
def pySorted (l : List JValue) : Option (List JValue) :=
  if l.length ≤ 1 then some l
  else if l.all (fun v => (strVal v).isSome) then
    some (List.insertionSort
      (fun a b => strLe ((strVal a).getD "") ((strVal b).getD "") = true) l)
  else if l.all (fun v => (numVal v).isSome) then
    some (List.insertionSort (fun a b => (numVal a).getD 0 ≤ (numVal b).getD 0) l)
  else none

/-- The sort key `assign_rank.get(k, 10**9)` used to order keywords. -/
def rkey (cs : ColorState) (k : JValue) : Nat :=
  (cs.assign_rank.lookup k).getD 1000000000

/-- The union of the keyword keys of all authors (the source builds the
set `all_keywords` by iterating a Python set, whose enumeration order is
unspecified; every later use is insensitive to that order — the
color-assignment loop only touches unassigned keywords and the display
list is re-sorted by rank — so we fix the concrete first-appearance
order). -/
def allKeywordsOf (c : List (JValue × List (JValue × Nat))) : List JValue :=
  ((c.map (fun p => p.2.map Prod.fst)).flatten).dedup

/-- What one call of `update_chart_all` draws. -/
structure Render where
  authors : List JValue
  stackOrder : List JValue
  bars : List (JValue × List Nat)
  legendOrder : List JValue
deriving DecidableEq

/-- The color state after the loop `for kw in all_keywords: _ =
color_for(kw)` in `update_chart_all` (a no-op on keywords that are
already assigned). -/
def chartColors (s : AppState) : ColorState :=
  (allKeywordsOf s.keyword_counts_by_author).foldl
    (fun cs kw => (color_for kw cs).2) s.colors

/-- The display order of the keywords in `update_chart_all`: the keywords
other than `"(none)"` sorted by the key `(assign_rank.get(k, 10**9), k)`
(the ranks of assigned keywords are pairwise distinct, so the tie-break
on `k` is never consulted and a stable sort on the rank key alone agrees
with the source), then `"(none)"` appended last when present. -/
def stackOrderOf (s : AppState) : List JValue :=
  let allKw := allKeywordsOf s.keyword_counts_by_author
  let sorted := List.insertionSort
    (fun a b => rkey (chartColors s) a ≤ rkey (chartColors s) b)
    (allKw.filter (fun k => k != JValue.str "(none)"))
  if allKw.contains (JValue.str "(none)") then sorted ++ [JValue.str "(none)"]
  else sorted

/-- `update_chart_all()`: sort the authors (a `TypeError` from `sorted`
propagates before any state change, modelled as `none`); on an empty state
just redraw; otherwise assign colors to any not-yet-assigned keywords,
order keywords by assigned rank with `"(none)"` forced last, and draw one
stacked bar per author with heights `counts[a].get(kw, 0)` and a legend in
stack order, reversed when `LEGEND_TOP_FIRST`.  Returns the render (none
when the sort raises) and the updated state. -/
def update_chart_all (s : AppState) : Option Render × AppState :=
  match pySorted (s.keyword_counts_by_author.map Prod.fst) with
  | none => (none, s)
  | some authors =>
      if authors.isEmpty then (some ⟨[], [], [], []⟩, s)
      else
        let s2 : AppState := ⟨s.keyword_counts_by_author, chartColors s⟩
        let keywords := stackOrderOf s
        let bars := keywords.map (fun kw =>
          (kw, authors.map (fun a =>
            (((s2.keyword_counts_by_author.lookup a).getD []).lookup kw).getD 0)))
        let legend := if LEGEND_TOP_FIRST then keywords.reverse else keywords
        (some ⟨authors, keywords, bars, legend⟩, s2)

/-- A Python exception escaping `process_message`. -/
inductive PyErr where
  | attributeError : PyErr
  | typeError : PyErr
deriving DecidableEq

/-- One input line, by its decode result. -/
inductive Line where
  | malformed : Line
  | json : JValue → Line
deriving DecidableEq

/-- The author field with its fallback:
`message_dict.get("author", "unknown")`. -/
def authorOf (fields : List (String × JValue)) : JValue :=
  (fields.lookup "author").getD (.str "unknown")

/-- The keyword field with its fallback:
`message_dict.get("keyword_mentioned") or "(none)"` — `.get` defaults to
`None`, and `or` replaces every falsy value by `"(none)"`. -/
def keywordOf (fields : List (String × JValue)) : JValue :=
  let v := (fields.lookup "keyword_mentioned").getD .null
  if truthy v then v else .str "(none)"

/-- `process_message(message)`: decode (a `JSONDecodeError` is caught and
the line skipped); extract `author` and `keyword` with their fallbacks
(`.get` on a non-dict value raises `AttributeError`); assign the keyword a
color/rank at first sight (an unhashable keyword raises `TypeError` before
any mutation); increment the per-author count (an unhashable author raises
`TypeError` after the color assignment); redraw the chart (a `TypeError`
from sorting the authors propagates after the increment).  Returns the
state as mutated up to the raise point, with the escaping exception if
any. -/
def process_message (l : Line) (s : AppState) : AppState × Option PyErr :=
  match l with
  | .malformed => (s, none)
  | .json v =>
      match v with
      | .obj fields =>
          let author := authorOf fields
          let keyword := keywordOf fields
          if hashable keyword then
            let cs := (color_for keyword s.colors).2
            let s1 : AppState := ⟨s.keyword_counts_by_author, cs⟩
            if hashable author then
              let s2 : AppState :=
                ⟨bumpCounts s1.keyword_counts_by_author author keyword, cs⟩
              match update_chart_all s2 with
              | (some _, s3) => (s3, none)
              | (none, s3) => (s3, some .typeError)
            else (s1, some .typeError)
          else (s, some .typeError)
      | _ => (s, some .attributeError)

/-- Process a list of lines in order, stopping at the first escaping
exception (in `main` it ends the loop). -/
def processAll (lines : List Line) (s : AppState) : AppState × Option PyErr :=
  match lines with
  | [] => (s, none)
  | l :: rest =>
      match process_message l s with
      | (s', none) => processAll rest s'
      | (s', some e) => (s', some e)

/-- One event seen by the tailing loop in `main`: a line whose `strip()`
is empty (skipped without processing), a non-empty line (processed), or a
`KeyboardInterrupt` delivered at the loop boundary. -/
inductive Event where
  | emptyLine : Event
  | line : Line → Event
  | interrupt : Event
deriving DecidableEq

/-- How a run of `main` ended. -/
inductive Cause where
  | missingFile : Cause
  | interrupted : Cause
  | errored : Cause
deriving DecidableEq

/-- The observable outcome of a run of `main`: the process exit status,
whether the `finally` shutdown path ran (`plt.ioff(); plt.show()` and the
closing log line), whether the generic handler logged an unexpected
error, and which path ended the run. -/
structure MainOutcome where
  exitCode : Nat
  shutdownRan : Bool
  loggedUnexpectedError : Bool
  cause : Cause
deriving DecidableEq

/-- The `while True` tailing loop of `main` under a finite event list:
blank lines are skipped, non-blank lines go to `process_message`; an
exception escaping `process_message` is caught by `except Exception`
(error logged, `finally` runs, `main` returns, exit status 0); a
`KeyboardInterrupt` is caught by its own handler (info log only,
`finally` runs, exit status 0).  `none` when the events run out: the real
loop would still be polling. -/
def runLoop (events : List Event) (s : AppState) :
    Option (MainOutcome × AppState) :=
  match events with
  | [] => none
  | .emptyLine :: rest => runLoop rest s
  | .interrupt :: _ => some (⟨0, true, false, .interrupted⟩, s)
  | .line l :: rest =>
      match process_message l s with
      | (s', none) => runLoop rest s'
      | (s', some _) => some (⟨0, true, true, .errored⟩, s')

/-- `main()`: when the data file does not exist, log an error and
`sys.exit(1)` before the `try` block (no shutdown path, exit status 1);
otherwise open the file, seek to its end and run the tailing loop. -/
def runMain (dataFileExists : Bool) (events : List Event) (s : AppState) :
    Option (MainOutcome × AppState) :=
  if dataFileExists then runLoop events s
  else some (⟨1, false, false, .missingFile⟩, s)

/-! ### Helper lemmas about the dict model -/

theorem lookup_dictSet {α β : Type} [BEq α] [LawfulBEq α] [DecidableEq α]
    (l : List (α × β)) (k k' : α) (v : β) :
    (dictSet l k v).lookup k' = if k' = k then some v else l.lookup k' := by
  induction l with
  | nil =>
      by_cases h : k' = k
      · subst h; simp [dictSet, List.lookup]
      · have hb : (k' == k) = false := by simpa [beq_eq_false_iff_ne] using h
        simp [dictSet, List.lookup, hb, h]
  | cons p rest ih =>
      rcases p with ⟨a, b⟩
      by_cases hp : a = k
      · subst hp
        by_cases h : k' = a
        · subst h; simp [dictSet, List.lookup]
        · have hb : (k' == a) = false := by simpa [beq_eq_false_iff_ne] using h
          simp [dictSet, List.lookup, hb, h]
      · have hpb : (a == k) = false := by simpa [beq_eq_false_iff_ne] using hp
        by_cases h2 : k' = a
        · subst h2
          simp [dictSet, List.lookup, hpb, hp]
        · have h2b : (k' == a) = false := by simpa [beq_eq_false_iff_ne] using h2
          simp [dictSet, List.lookup, hpb, h2b, ih]

theorem lookup_append_some {α β : Type} [BEq α]
    (l l2 : List (α × β)) (k : α) (c : β) (h : l.lookup k = some c) :
    (l ++ l2).lookup k = some c := by
  induction l with
  | nil => simp [List.lookup] at h
  | cons p rest ih =>
      rcases p with ⟨a, b⟩
      cases hp : (k == a) <;> simp [List.lookup, hp] at h ⊢
      · exact ih h
      · exact h

theorem mem_dictSet {α β : Type} [BEq α] [LawfulBEq α]
    (l : List (α × β)) (k : α) (v : β) (p : α × β)
    (h : p ∈ dictSet l k v) : p ∈ l ∨ p = (k, v) := by
  induction l with
  | nil => simp [dictSet] at h; exact Or.inr h
  | cons q rest ih =>
      by_cases hq : (q.1 == k) = true <;> simp [dictSet, hq] at h
      · rcases h with h | h
        · exact Or.inr h
        · exact Or.inl (List.mem_cons_of_mem _ h)
      · rcases h with h | h
        · exact Or.inl (by simp [h])
        · rcases ih h with h' | h'
          · exact Or.inl (List.mem_cons_of_mem _ h')
          · exact Or.inr h'

theorem lookup_mem {α β : Type} [BEq α] [LawfulBEq α]
    (l : List (α × β)) (k : α) (m : β) (h : l.lookup k = some m) :
    (k, m) ∈ l := by
  induction l with
  | nil => simp [List.lookup] at h
  | cons p rest ih =>
      rcases p with ⟨a, b⟩
      cases hp : (k == a) <;> simp [List.lookup, hp] at h
      · exact List.mem_cons_of_mem _ (ih h)
      · have ha : k = a := by simpa using hp
        simp [ha, h]

theorem countIn_bumpCounts (c : List (JValue × List (JValue × Nat)))
    (cs : ColorState) (a0 k0 a k : JValue) :
    countIn ⟨bumpCounts c a0 k0, cs⟩ a k =
      countIn ⟨c, cs⟩ a k + (if a = a0 ∧ k = k0 then 1 else 0) := by
  unfold countIn bumpCounts
  rw [lookup_dictSet]
  by_cases ha : a = a0
  · subst ha
    rw [if_pos rfl, Option.getD_some, lookup_dictSet]
    by_cases hk : k = k0
    · subst hk; simp
    · simp [hk]
  · simp [ha]

theorem presentIn_bumpCounts (c : List (JValue × List (JValue × Nat)))
    (cs : ColorState) (a0 k0 a k : JValue) :
    presentIn ⟨bumpCounts c a0 k0, cs⟩ a k = true ↔
      (presentIn ⟨c, cs⟩ a k = true ∨ (a = a0 ∧ k = k0)) := by
  unfold presentIn bumpCounts
  rw [lookup_dictSet]
  by_cases ha : a = a0
  · subst ha
    rw [if_pos rfl, Option.getD_some, lookup_dictSet]
    by_cases hk : k = k0
    · subst hk; simp
    · simp [hk]
  · simp [ha]

theorem update_chart_counts (s : AppState) :
    (update_chart_all s).2.keyword_counts_by_author =
      s.keyword_counts_by_author := by
  unfold update_chart_all
  split
  · rfl
  · split
    · rfl
    · rfl

theorem process_obj_ok_shape (f : List (String × JValue)) (s s' : AppState)
    (h : process_message (.json (.obj f)) s = (s', none)) :
    hashable (keywordOf f) = true ∧ hashable (authorOf f) = true ∧
    s' = (update_chart_all
        ⟨bumpCounts s.keyword_counts_by_author (authorOf f) (keywordOf f),
         (color_for (keywordOf f) s.colors).2⟩).2 := by
  simp only [process_message] at h
  by_cases hk : hashable (keywordOf f) = true
  · by_cases ha : hashable (authorOf f) = true
    · refine ⟨hk, ha, ?_⟩
      simp only [hk, ha, if_true] at h
      rcases hu : update_chart_all
          ⟨bumpCounts s.keyword_counts_by_author (authorOf f) (keywordOf f),
           (color_for (keywordOf f) s.colors).2⟩ with ⟨ro, s3⟩
      rw [hu] at h
      cases ro with
      | some r => simp at h ⊢; exact h.symm
      | none => simp at h
    · simp [hk, ha] at h
  · simp [hk] at h

theorem process_obj_countIn (f : List (String × JValue)) (s s' : AppState)
    (h : process_message (.json (.obj f)) s = (s', none)) (a k : JValue) :
    countIn s' a k =
      countIn s a k + (if a = authorOf f ∧ k = keywordOf f then 1 else 0) := by
  obtain ⟨hk, ha, hs⟩ := process_obj_ok_shape f s s' h
  have h2 : s'.keyword_counts_by_author =
      bumpCounts s.keyword_counts_by_author (authorOf f) (keywordOf f) := by
    rw [hs]; exact update_chart_counts _
  have h3 := countIn_bumpCounts s.keyword_counts_by_author s'.colors
      (authorOf f) (keywordOf f) a k
  unfold countIn at h3 ⊢
  rw [h2]
  exact h3

theorem process_obj_presentIn (f : List (String × JValue)) (s s' : AppState)
    (h : process_message (.json (.obj f)) s = (s', none)) (a k : JValue) :
    presentIn s' a k = true ↔
      (presentIn s a k = true ∨ (a = authorOf f ∧ k = keywordOf f)) := by
  obtain ⟨hk, ha, hs⟩ := process_obj_ok_shape f s s' h
  have h2 : s'.keyword_counts_by_author =
      bumpCounts s.keyword_counts_by_author (authorOf f) (keywordOf f) := by
    rw [hs]; exact update_chart_counts _
  have h3 := presentIn_bumpCounts s.keyword_counts_by_author s'.colors
      (authorOf f) (keywordOf f) a k
  unfold presentIn at h3 ⊢
  rw [h2]
  exact h3

theorem authorOf_absent (f : List (String × JValue))
    (h : f.lookup "author" = none) : authorOf f = .str "unknown" := by
  unfold authorOf; rw [h]; rfl

theorem keywordOf_absent_or_empty (f : List (String × JValue))
    (h : f.lookup "keyword_mentioned" = none ∨
         f.lookup "keyword_mentioned" = some (.str "")) :
    keywordOf f = .str "(none)" := by
  unfold keywordOf
  rcases h with h | h <;> rw [h] <;> rfl

/-- Whether a decoded JSON value is an object (a Python dict). -/
def JValue.isObj : JValue → Bool
  | .obj _ => true
  | _ => false

/-- C3: a malformed input line (one on which the decode raises) leaves the
aggregate counts, the color assignment and the rank assignment exactly as
they were, and no exception propagates past the decode step: the
`JSONDecodeError` is caught inside `process_message`, which returns with
the state unchanged. -/
theorem malformed_line_is_noop (s : AppState) :
    process_message Line.malformed s = (s, none) ∧
    (process_message Line.malformed s).1.keyword_counts_by_author =
      s.keyword_counts_by_author ∧
    (process_message Line.malformed s).1.colors.keyword_color =
      s.colors.keyword_color ∧
    (process_message Line.malformed s).1.colors.assign_rank =
      s.colors.assign_rank :=
  ⟨rfl, rfl, rfl, rfl⟩

/-- C10: a line that decodes to a JSON value that is not an object (a bare
number, string, array, …) makes `process_message` raise past the decode
step (`.get` fails on a non-dict, an `AttributeError`), leaving the state
unchanged; in `main` the generic `except Exception` handler catches it:
the loop terminates, the error is logged, and the shutdown path still
runs (with exit status 0). -/
theorem nonobject_json_raises (v : JValue) (hv : v.isObj = false)
    (s : AppState) (rest : List Event) :
    process_message (.json v) s = (s, some PyErr.attributeError) ∧
    runLoop (Event.line (.json v) :: rest) s =
      some (⟨0, true, true, Cause.errored⟩, s) := by
  have hp : process_message (.json v) s = (s, some PyErr.attributeError) := by
    cases v <;> first
      | rfl
      | simp [JValue.isObj] at hv
  refine ⟨hp, ?_⟩
  simp [runLoop, hp]

/-- Witness for C10 at the concrete non-object line `5`. -/
theorem nonobject_json_raises_witness :
    JValue.isObj (JValue.num 5) = false ∧
    process_message (.json (.num 5)) initState =
      (initState, some PyErr.attributeError) ∧
    runLoop [Event.line (.json (.num 5))] initState =
      some (⟨0, true, true, Cause.errored⟩, initState) := by
  have h := nonobject_json_raises (JValue.num 5) (by decide) initState []
  exact ⟨by decide, h.1, h.2⟩

/-- C2: for a record processed (successfully) by `process_message`: a
decoded object with no `author` key is counted under the fallback author
`"unknown"`, and one with no `keyword_mentioned` key — or with the empty
string as its value — is counted under the fallback keyword `"(none)"`
(its count goes up by one there). -/
theorem fallback_fields_counted (f : List (String × JValue)) (s s' : AppState)
    (h : process_message (.json (.obj f)) s = (s', none)) :
    (f.lookup "author" = none →
      authorOf f = .str "unknown" ∧
      countIn s' (.str "unknown") (keywordOf f) =
        countIn s (.str "unknown") (keywordOf f) + 1) ∧
    ((f.lookup "keyword_mentioned" = none ∨
        f.lookup "keyword_mentioned" = some (.str "")) →
      keywordOf f = .str "(none)" ∧
      countIn s' (authorOf f) (.str "(none)") =
        countIn s (authorOf f) (.str "(none)") + 1) := by
  constructor
  · intro hA
    refine ⟨authorOf_absent f hA, ?_⟩
    have h2 := process_obj_countIn f s s' h (.str "unknown") (keywordOf f)
    rw [authorOf_absent f hA] at h2
    simpa using h2
  · intro hK
    refine ⟨keywordOf_absent_or_empty f hK, ?_⟩
    have h2 := process_obj_countIn f s s' h (authorOf f) (.str "(none)")
    rw [keywordOf_absent_or_empty f hK] at h2
    simpa using h2

/-- Witness for C2 at the record decoding to the empty object. -/
theorem fallback_fields_counted_witness :
    countIn (process_message (.json (.obj [])) initState).1
        (.str "unknown") (keywordOf []) =
      countIn initState (.str "unknown") (keywordOf []) + 1 ∧
    countIn (process_message (.json (.obj [])) initState).1
        (authorOf []) (.str "(none)") =
      countIn initState (authorOf []) (.str "(none)") + 1 := by
  have h := fallback_fields_counted []
    initState (process_message (.json (.obj [])) initState).1 (by rfl)
  exact ⟨(h.1 rfl).2, (h.2 (Or.inl rfl)).2⟩

/-- C9: a decoded record whose `keyword_mentioned` value is any falsy
value — `null`, `false`, `0`, an empty list or an empty object, not only
absent or the empty string — is attributed to the `"(none)"` keyword,
because `message_dict.get("keyword_mentioned") or "(none)"` replaces
every falsy value by the fallback. -/
theorem falsy_keyword_counted_none (f : List (String × JValue)) (v : JValue)
    (s s' : AppState) (hv : f.lookup "keyword_mentioned" = some v)
    (ht : truthy v = false)
    (h : process_message (.json (.obj f)) s = (s', none)) :
    keywordOf f = .str "(none)" ∧
    countIn s' (authorOf f) (.str "(none)") =
      countIn s (authorOf f) (.str "(none)") + 1 ∧
    (truthy .null = false ∧ truthy (.bool false) = false ∧
     truthy (.num 0) = false ∧ truthy (.arr []) = false ∧
     truthy (.obj []) = false) := by
  have hkw : keywordOf f = .str "(none)" := by
    unfold keywordOf; rw [hv]; simp [ht]
  refine ⟨hkw, ?_, by decide, by decide, by decide, by decide, by decide⟩
  have h2 := process_obj_countIn f s s' h (authorOf f) (.str "(none)")
  rw [hkw] at h2
  simpa using h2

/-- Witness for C9 at the record whose keyword field is `null`. -/
theorem falsy_keyword_counted_none_witness :
    keywordOf [("keyword_mentioned", JValue.null)] = .str "(none)" ∧
    countIn (process_message
        (.json (.obj [("keyword_mentioned", JValue.null)])) initState).1
        (authorOf [("keyword_mentioned", JValue.null)]) (.str "(none)") =
      countIn initState
        (authorOf [("keyword_mentioned", JValue.null)]) (.str "(none)") + 1 := by
  have h := falsy_keyword_counted_none [("keyword_mentioned", JValue.null)]
    JValue.null initState
    (process_message (.json (.obj [("keyword_mentioned", JValue.null)]))
      initState).1
    (by rfl) (by rfl) (by rfl)
  exact ⟨h.1, h.2.1⟩

/-- C8: when the data file does not exist at startup, `main` logs an
error and exits with status 1 (non-zero) before the processing loop; when
the run is terminated by a `KeyboardInterrupt`, the process exits with
status 0, the shutdown path (final chart flush and closing log message)
still runs, and the interruption is logged as info, not as an error. -/
theorem exit_code_behaviour (events : List Event) (s : AppState) :
    (runMain false events s =
        some (⟨1, false, false, Cause.missingFile⟩, s) ∧ (1 : Nat) ≠ 0) ∧
    (∀ (o : MainOutcome) (s' : AppState),
      runMain true events s = some (o, s') → o.cause = Cause.interrupted →
      o.exitCode = 0 ∧ o.shutdownRan = true ∧
      o.loggedUnexpectedError = false) := by
  refine ⟨⟨rfl, by decide⟩, ?_⟩
  intro o s' h hc
  induction events generalizing s with
  | nil => simp [runMain, runLoop] at h
  | cons e rest ih =>
      cases e with
      | emptyLine => exact ih s (by simpa [runMain, runLoop] using h)
      | interrupt =>
          simp [runMain, runLoop] at h
          rw [← h.1]
          exact ⟨rfl, rfl, rfl⟩
      | line l =>
          rcases hp : process_message l s with ⟨s2, e2⟩
          cases e2 with
          | none => exact ih s2 (by simpa [runMain, runLoop, hp] using h)
          | some err =>
              simp [runMain, runLoop, hp] at h
              rw [← h.1] at hc
              simp at hc

/-- Witness for C8: a run over a single interruption event. -/
theorem exit_code_behaviour_witness :
    runMain false [Event.interrupt] initState =
      some (⟨1, false, false, Cause.missingFile⟩, initState) ∧
    (MainOutcome.mk 0 true false Cause.interrupted).exitCode = 0 ∧
    (MainOutcome.mk 0 true false Cause.interrupted).shutdownRan = true ∧
    (MainOutcome.mk 0 true false Cause.interrupted).loggedUnexpectedError
      = false := by
  have h := exit_code_behaviour [Event.interrupt] initState
  exact ⟨h.1.1,
    h.2 ⟨0, true, false, Cause.interrupted⟩ initState (by rfl) (by rfl)⟩

/-- The `(author, keyword)` pair a line maps to after the fallback rules,
when it decodes to a JSON object. -/
def pairOf : Line → Option (JValue × JValue)
  | .json (.obj fields) => some (authorOf fields, keywordOf fields)
  | _ => none

/-- Whether a line decodes to a JSON object. -/
def isObjLine : Line → Bool
  | .json (.obj _) => true
  | _ => false

theorem isObjLine_shape (l : Line) (h : isObjLine l = true) :
    ∃ f, l = Line.json (.obj f) := by
  rcases l with _ | (_ | _ | _ | _ | _ | f)
  all_goals first
    | exact ⟨f, rfl⟩
    | simp [isObjLine] at h

theorem processAll_counts_general (lines : List Line) (s s' : AppState)
    (hobj : ∀ l ∈ lines, isObjLine l = true)
    (hok : processAll lines s = (s', none)) (a k : JValue) :
    countIn s' a k = countIn s a k + (lines.filterMap pairOf).count (a, k) ∧
    (presentIn s' a k = true ↔
      (presentIn s a k = true ∨ (a, k) ∈ lines.filterMap pairOf)) := by
  induction lines generalizing s with
  | nil =>
      simp [processAll] at hok
      rw [hok]
      simp
  | cons l rest ih =>
      obtain ⟨f, rfl⟩ := isObjLine_shape l (hobj l (by simp))
      rcases hp : process_message (.json (.obj f)) s with ⟨s1, e1⟩
      cases e1 with
      | none =>
          have hok' : processAll rest s1 = (s', none) := by
            simpa [processAll, hp] using hok
          have hrest := ih s1
            (fun l hl => hobj l (List.mem_cons_of_mem _ hl)) hok'
          have hstep := process_obj_countIn f s s1 hp a k
          have hstepP := process_obj_presentIn f s s1 hp a k
          constructor
          · rw [hrest.1, hstep]
            simp only [List.filterMap_cons, pairOf, List.count_cons]
            by_cases hcond : a = authorOf f ∧ k = keywordOf f
            · have hb : ((authorOf f, keywordOf f) == (a, k)) = true := by
                simp [hcond.1, hcond.2]
              simp [hcond, hb]
              omega
            · have hb : ((authorOf f, keywordOf f) == (a, k)) = false := by
                by_contra hx
                simp only [Bool.not_eq_false, beq_iff_eq, Prod.mk.injEq] at hx
                exact hcond ⟨hx.1.symm, hx.2.symm⟩
              simp [hcond, hb]
          · rw [hrest.2, hstepP]
            simp only [List.filterMap_cons, pairOf, List.mem_cons]
            constructor
            · rintro ((hp1 | hp2) | hp3)
              · exact Or.inl hp1
              · exact Or.inr (Or.inl (by simp [hp2.1, hp2.2]))
              · exact Or.inr (Or.inr hp3)
            · rintro (hp1 | hp2 | hp3)
              · exact Or.inl (Or.inl hp1)
              · rw [Prod.mk.injEq] at hp2
                exact Or.inl (Or.inr hp2)
              · exact Or.inr hp3
      | some err => simp [processAll, hp] at hok

/-- C1: over any sequence of lines each decoding to a JSON object that is
processed to completion (no exception escapes), the aggregate count
stored under `(author, keyword)` equals the number of records mapping to
exactly that pair after the fallback rules, and no pair is present in the
state other than the pairs of the records. -/
theorem processAll_counts_exact (lines : List Line) (s' : AppState)
    (hobj : ∀ l ∈ lines, isObjLine l = true)
    (hok : processAll lines initState = (s', none)) (a k : JValue) :
    countIn s' a k = (lines.filterMap pairOf).count (a, k) ∧
    (presentIn s' a k = true ↔ (a, k) ∈ lines.filterMap pairOf) := by
  have h := processAll_counts_general lines initState s' hobj hok a k
  have h0 : countIn initState a k = 0 := rfl
  have h0p : presentIn initState a k = false := rfl
  constructor
  · rw [h.1, h0]; omega
  · rw [h.2, h0p]; simp

/-- The spec's example records: two records `(author A, keyword x)` and
one record `(author B, no keyword)`. -/
def exLines : List Line :=
  [Line.json (.obj [("author", .str "A"), ("keyword_mentioned", .str "x")]),
   Line.json (.obj [("author", .str "A"), ("keyword_mentioned", .str "x")]),
   Line.json (.obj [("author", .str "B")])]

/-- Witness for C1 on the spec's example: the final state is
`A ↦ x ↦ 2, B ↦ (none) ↦ 1` and no other pair is present. -/
theorem processAll_counts_exact_witness :
    countIn (processAll exLines initState).1 (.str "A") (.str "x") = 2 ∧
    countIn (processAll exLines initState).1 (.str "B") (.str "(none)") = 1 ∧
    presentIn (processAll exLines initState).1 (.str "A") (.str "(none)")
      = false := by
  have h1 := processAll_counts_exact exLines (processAll exLines initState).1
    (by decide) (by rfl) (.str "A") (.str "x")
  have h2 := processAll_counts_exact exLines (processAll exLines initState).1
    (by decide) (by rfl) (.str "B") (.str "(none)")
  have h3 := processAll_counts_exact exLines (processAll exLines initState).1
    (by decide) (by rfl) (.str "A") (.str "(none)")
  refine ⟨h1.1.trans (by decide), h2.1.trans (by decide), ?_⟩
  have hmem : ¬((JValue.str "A", JValue.str "(none)") ∈
      exLines.filterMap pairOf) := by decide
  cases hpres : presentIn (processAll exLines initState).1
      (.str "A") (.str "(none)")
  · rfl
  · exact absurd (h3.2.mp hpres) hmem

/-! ### The color/rank assignment invariant -/

/-- The color dict built by assigning palette slots in order from slot
`n` onwards (wrapping) to the given keywords. -/
def colorsFrom (n : Nat) : List JValue → List (JValue × String)
  | [] => []
  | k :: ks => (k, PALETTE.getD (n % PALETTE.length) "") :: colorsFrom (n + 1) ks

/-- The rank dict built by assigning ranks `n, n+1, …` to the given
keywords. -/
def ranksFrom (n : Nat) : List JValue → List (JValue × Nat)
  | [] => []
  | k :: ks => (k, n) :: ranksFrom (n + 1) ks

/-- The invariant `color_for` maintains: both dicts list the distinct
keywords in first-sight order, the colors being consecutive palette slots
(wrapping) and the ranks 0, 1, 2, …. -/
def ColorInv (cs : ColorState) : Prop :=
  ∃ kws : List JValue, kws.Nodup ∧
    cs.keyword_color = colorsFrom 0 kws ∧ cs.assign_rank = ranksFrom 0 kws

theorem length_colorsFrom (n : Nat) (ks : List JValue) :
    (colorsFrom n ks).length = ks.length := by
  induction ks generalizing n with
  | nil => rfl
  | cons k ks ih => simp [colorsFrom, ih]

theorem length_ranksFrom (n : Nat) (ks : List JValue) :
    (ranksFrom n ks).length = ks.length := by
  induction ks generalizing n with
  | nil => rfl
  | cons k ks ih => simp [ranksFrom, ih]

theorem colorsFrom_append (n : Nat) (ks : List JValue) (k : JValue) :
    colorsFrom n (ks ++ [k]) =
      colorsFrom n ks ++
        [(k, PALETTE.getD ((n + ks.length) % PALETTE.length) "")] := by
  induction ks generalizing n with
  | nil => simp [colorsFrom]
  | cons k0 ks ih =>
      simp only [List.cons_append, colorsFrom, List.append_eq]
      rw [ih]
      rw [show n + 1 + ks.length = n + (ks.length + 1) from by omega]
      simp

theorem ranksFrom_append (n : Nat) (ks : List JValue) (k : JValue) :
    ranksFrom n (ks ++ [k]) = ranksFrom n ks ++ [(k, n + ks.length)] := by
  induction ks generalizing n with
  | nil => simp [ranksFrom]
  | cons k0 ks ih =>
      simp only [List.cons_append, ranksFrom, List.append_eq]
      rw [ih]
      rw [show n + 1 + ks.length = n + (ks.length + 1) from by omega]
      simp

theorem map_fst_colorsFrom (n : Nat) (ks : List JValue) :
    (colorsFrom n ks).map Prod.fst = ks := by
  induction ks generalizing n with
  | nil => rfl
  | cons k ks ih => simp [colorsFrom, ih]

theorem map_fst_ranksFrom (n : Nat) (ks : List JValue) :
    (ranksFrom n ks).map Prod.fst = ks := by
  induction ks generalizing n with
  | nil => rfl
  | cons k ks ih => simp [ranksFrom, ih]

theorem lookup_colorsFrom_none (n : Nat) (ks : List JValue) (kw : JValue) :
    (colorsFrom n ks).lookup kw = none ↔ kw ∉ ks := by
  induction ks generalizing n with
  | nil => simp [colorsFrom, List.lookup]
  | cons k ks ih =>
      by_cases hk : kw = k
      · subst hk; simp [colorsFrom, List.lookup]
      · have hb : (kw == k) = false := by simpa [beq_eq_false_iff_ne] using hk
        simp [colorsFrom, List.lookup, hb, ih, hk]

theorem lookup_ranksFrom_color (n : Nat) (ks : List JValue) (kw : JValue)
    (i : Nat) (h : (ranksFrom n ks).lookup kw = some i) :
    (colorsFrom n ks).lookup kw =
      some (PALETTE.getD (i % PALETTE.length) "") := by
  induction ks generalizing n with
  | nil => simp [ranksFrom, List.lookup] at h
  | cons k ks ih =>
      by_cases hk : (kw == k) = true
      · simp [ranksFrom, List.lookup, hk] at h
        simp [colorsFrom, List.lookup, hk, ← h]
      · simp only [ranksFrom, List.lookup, hk] at h
        simp only [colorsFrom, List.lookup, hk]
        exact ih (n + 1) h

theorem get_ranksFrom (n j : Nat) (ks : List JValue)
    (hj : j < (ranksFrom n ks).length) :
    ((ranksFrom n ks).get ⟨j, hj⟩).2 = n + j := by
  induction ks generalizing n j with
  | nil => simp [ranksFrom] at hj
  | cons k ks ih =>
      cases j with
      | zero => simp [ranksFrom]
      | succ j =>
          have hj' : j < (ranksFrom (n + 1) ks).length := by
            simpa [ranksFrom] using hj
          have := ih (n + 1) j hj'
          simp only [ranksFrom, List.get_cons_succ, this]
          omega

theorem get_colorsFrom (n j : Nat) (ks : List JValue)
    (hj : j < (colorsFrom n ks).length) :
    ((colorsFrom n ks).get ⟨j, hj⟩).2 =
      PALETTE.getD ((n + j) % PALETTE.length) "" := by
  induction ks generalizing n j with
  | nil => simp [colorsFrom] at hj
  | cons k ks ih =>
      cases j with
      | zero => simp [colorsFrom]
      | succ j =>
          have hj' : j < (colorsFrom (n + 1) ks).length := by
            simpa [colorsFrom] using hj
          have := ih (n + 1) j hj'
          simp only [colorsFrom, List.get_cons_succ, this]
          rw [show n + 1 + j = n + (j + 1) from by omega]

theorem get_fst_colorsFrom (n j : Nat) (ks : List JValue)
    (hj : j < (colorsFrom n ks).length) (hj2 : j < ks.length) :
    ((colorsFrom n ks).get ⟨j, hj⟩).1 = ks.get ⟨j, hj2⟩ := by
  induction ks generalizing n j with
  | nil => simp [colorsFrom] at hj
  | cons k ks ih =>
      cases j with
      | zero => simp [colorsFrom]
      | succ j =>
          have hj' : j < (colorsFrom (n + 1) ks).length := by
            simpa [colorsFrom] using hj
          have := ih (n + 1) j hj' (by simpa using hj2)
          simpa [colorsFrom] using this

theorem get_fst_ranksFrom (n j : Nat) (ks : List JValue)
    (hj : j < (ranksFrom n ks).length) (hj2 : j < ks.length) :
    ((ranksFrom n ks).get ⟨j, hj⟩).1 = ks.get ⟨j, hj2⟩ := by
  induction ks generalizing n j with
  | nil => simp [ranksFrom] at hj
  | cons k ks ih =>
      cases j with
      | zero => simp [ranksFrom]
      | succ j =>
          have hj' : j < (ranksFrom (n + 1) ks).length := by
            simpa [ranksFrom] using hj
          have := ih (n + 1) j hj' (by simpa using hj2)
          simpa [ranksFrom] using this

theorem lookup_append_none {α β : Type} [BEq α]
    (l l2 : List (α × β)) (k : α) (h : l.lookup k = none) :
    (l ++ l2).lookup k = l2.lookup k := by
  induction l with
  | nil => simp
  | cons p rest ih =>
      rcases p with ⟨a, b⟩
      cases hp : (k == a) <;> simp [List.lookup, hp] at h ⊢
      · exact ih h

theorem color_for_inv (kw : JValue) (cs : ColorState) (h : ColorInv cs) :
    ColorInv (color_for kw cs).2 := by
  obtain ⟨kws, hnd, hc, hr⟩ := h
  unfold color_for
  cases hl : cs.keyword_color.lookup kw with
  | some c => exact ⟨kws, hnd, hc, hr⟩
  | none =>
      have hkw : kw ∉ kws := by
        rw [hc, lookup_colorsFrom_none] at hl
        exact hl
      refine ⟨kws ++ [kw], ?_, ?_, ?_⟩
      · simp [List.nodup_append, hnd, hkw]
      · rw [colorsFrom_append, hc, length_colorsFrom]
        simp
      · rw [ranksFrom_append, hr, length_ranksFrom]
        simp

theorem foldl_color_for_inv (l : List JValue) (cs : ColorState)
    (h : ColorInv cs) :
    ColorInv (l.foldl (fun cs kw => (color_for kw cs).2) cs) := by
  induction l generalizing cs with
  | nil => exact h
  | cons k l ih => exact ih _ (color_for_inv k cs h)

theorem update_chart_inv (s : AppState) (h : ColorInv s.colors) :
    ColorInv (update_chart_all s).2.colors := by
  unfold update_chart_all
  split
  · exact h
  · split
    · exact h
    · exact foldl_color_for_inv _ _ h

theorem process_inv (l : Line) (s : AppState) (h : ColorInv s.colors) :
    ColorInv (process_message l s).1.colors := by
  cases l with
  | malformed => exact h
  | json v =>
      cases v with
      | obj f =>
          simp only [process_message]
          by_cases hk : hashable (keywordOf f) = true
      
          · by_cases ha : hashable (authorOf f) = true
            · simp only [hk, ha, if_true]
              rcases hu : update_chart_all
                  ⟨bumpCounts s.keyword_counts_by_author (authorOf f)
                    (keywordOf f), (color_for (keywordOf f) s.colors).2⟩
                with ⟨ro, s3⟩
              have h3 : ColorInv s3.colors := by
                have := update_chart_inv
                  ⟨bumpCounts s.keyword_counts_by_author (authorOf f)
                    (keywordOf f), (color_for (keywordOf f) s.colors).2⟩
                  (color_for_inv (keywordOf f) s.colors h)
                rwa [hu] at this
              cases ro <;> simp [hu] <;> exact h3
            · simp [hk, ha]
              exact color_for_inv (keywordOf f) s.colors h
          · simp [hk]
            exact h
      | null => exact h
      | bool b => exact h
      | num n => exact h
      | str t => exact h
      | arr l => exact h

theorem processAll_inv (lines : List Line) (s s' : AppState) (e : Option PyErr)
    (h0 : ColorInv s.colors) (h : processAll lines s = (s', e)) :
    ColorInv s'.colors := by
  induction lines generalizing s with
  | nil =>
      simp [processAll] at h
      rw [← h.1]
      exact h0
  | cons l rest ih =>
      rcases hp : process_message l s with ⟨s1, e1⟩
      have h1 : ColorInv s1.colors := by
        have := process_inv l s h0
        rwa [hp] at this
      cases e1 with
      | none =>
          exact ih s1 h1 (by simpa [processAll, hp] using h)
      | some err =>
          simp [processAll, hp] at h
          rw [← h.1]
          exact h1

/-- Monotonicity of the color assignment: every existing entry of
`keyword_color` and `assign_rank` is preserved. -/
def ColorsLe (cs cs' : ColorState) : Prop :=
  (∀ kw c, cs.keyword_color.lookup kw = some c →
      cs'.keyword_color.lookup kw = some c) ∧
  (∀ kw r, cs.assign_rank.lookup kw = some r →
      cs'.assign_rank.lookup kw = some r)

theorem ColorsLe.refl (cs : ColorState) : ColorsLe cs cs :=
  ⟨fun _ _ h => h, fun _ _ h => h⟩

theorem ColorsLe.trans {a b c : ColorState}
    (h1 : ColorsLe a b) (h2 : ColorsLe b c) : ColorsLe a c :=
  ⟨fun kw x h => h2.1 kw x (h1.1 kw x h),
   fun kw x h => h2.2 kw x (h1.2 kw x h)⟩

theorem color_for_le (k : JValue) (cs : ColorState) :
    ColorsLe cs (color_for k cs).2 := by
  unfold color_for
  cases hl : cs.keyword_color.lookup k with
  | some c => exact ColorsLe.refl cs
  | none =>
      exact ⟨fun kw c h => lookup_append_some _ _ _ _ h,
             fun kw r h => lookup_append_some _ _ _ _ h⟩

theorem foldl_color_for_le (l : List JValue) (cs : ColorState) :
    ColorsLe cs (l.foldl (fun cs kw => (color_for kw cs).2) cs) := by
  induction l generalizing cs with
  | nil => exact ColorsLe.refl cs
  | cons k l ih => exact (color_for_le k cs).trans (ih _)

theorem update_chart_le (s : AppState) :
    ColorsLe s.colors (update_chart_all s).2.colors := by
  unfold update_chart_all
  split
  · exact ColorsLe.refl _
  · split
    · exact ColorsLe.refl _
    · exact foldl_color_for_le _ _

theorem process_le (l : Line) (s : AppState) :
    ColorsLe s.colors (process_message l s).1.colors := by
  cases l with
  | malformed => exact ColorsLe.refl _
  | json v =>
      cases v with
      | obj f =>
          simp only [process_message]
          by_cases hk : hashable (keywordOf f) = true
          · by_cases ha : hashable (authorOf f) = true
            · simp only [hk, ha, if_true]
              rcases hu : update_chart_all
                  ⟨bumpCounts s.keyword_counts_by_author (authorOf f)
                    (keywordOf f), (color_for (keywordOf f) s.colors).2⟩
                with ⟨ro, s3⟩
              have h3 : ColorsLe s.colors s3.colors := by
                have h4 := update_chart_le
                  ⟨bumpCounts s.keyword_counts_by_author (authorOf f)
                    (keywordOf f), (color_for (keywordOf f) s.colors).2⟩
                rw [hu] at h4
                exact (color_for_le (keywordOf f) s.colors).trans h4
              cases ro <;> simp [hu] <;> exact h3
            · simp [hk, ha]
              exact color_for_le (keywordOf f) s.colors
          · simp [hk]
            exact ColorsLe.refl _
      | null => exact ColorsLe.refl _
      | bool b => exact ColorsLe.refl _
      | num n => exact ColorsLe.refl _
      | str t => exact ColorsLe.refl _
      | arr l => exact ColorsLe.refl _

theorem processAll_le (lines : List Line) (s s' : AppState) (e : Option PyErr)
    (h : processAll lines s = (s', e)) : ColorsLe s.colors s'.colors := by
  induction lines generalizing s with
  | nil =>
      simp [processAll] at h
      rw [← h.1]
      exact ColorsLe.refl _
  | cons l rest ih =>
      rcases hp : process_message l s with ⟨s1, e1⟩
      have h1 : ColorsLe s.colors s1.colors := by
        have := process_le l s
        rwa [hp] at this
      cases e1 with
      | none => exact h1.trans (ih s1 (by simpa [processAll, hp] using h))
      | some err =>
          simp [processAll, hp] at h
          rw [← h.1]
          exact h1

theorem color_for_assigns (k : JValue) (cs : ColorState) :
    ((color_for k cs).2.keyword_color.lookup k).isSome = true := by
  unfold color_for
  cases hl : cs.keyword_color.lookup k with
  | some c => simp [hl]
  | none =>
      rw [lookup_append_none _ _ _ hl]
      simp [List.lookup]

/-- Every keyword appearing anywhere in the aggregate counts has an
assigned color. -/
def CountsAssigned (s : AppState) : Prop :=
  ∀ p ∈ s.keyword_counts_by_author, ∀ q ∈ p.2,
    (s.colors.keyword_color.lookup q.1).isSome = true

theorem mem_lookup_getD (c : List (JValue × List (JValue × Nat)))
    (a : JValue) (q : JValue × Nat) (hq : q ∈ (c.lookup a).getD []) :
    ∃ p ∈ c, q ∈ p.2 := by
  cases hc : c.lookup a with
  | none => rw [hc] at hq; simp at hq
  | some m => rw [hc] at hq; exact ⟨(a, m), lookup_mem _ _ _ hc, hq⟩

theorem counts_assigned_mono (s s' : AppState)
    (hcounts : s'.keyword_counts_by_author = s.keyword_counts_by_author)
    (hle : ColorsLe s.colors s'.colors) (h : CountsAssigned s) :
    CountsAssigned s' := by
  intro p hp q hq
  rw [hcounts] at hp
  obtain ⟨cc, hcc⟩ := Option.isSome_iff_exists.mp (h p hp q hq)
  simp [hle.1 q.1 cc hcc]

theorem bump_assigned (c : List (JValue × List (JValue × Nat)))
    (cs cs' : ColorState) (a0 k0 : JValue)
    (h : CountsAssigned ⟨c, cs⟩) (hle : ColorsLe cs cs')
    (hk : (cs'.keyword_color.lookup k0).isSome = true) :
    CountsAssigned ⟨bumpCounts c a0 k0, cs'⟩ := by
  intro p hp q hq
  unfold bumpCounts at hp
  rcases mem_dictSet _ _ _ _ hp with hp1 | hp2
  · obtain ⟨cc, hcc⟩ := Option.isSome_iff_exists.mp (h p hp1 q hq)
    simp [hle.1 q.1 cc hcc]
  · rw [hp2] at hq
    rcases mem_dictSet _ _ _ _ hq with hq1 | hq2
    · obtain ⟨p', hp', hq'⟩ := mem_lookup_getD c a0 q hq1
      obtain ⟨cc, hcc⟩ := Option.isSome_iff_exists.mp (h p' hp' q hq')
      simp [hle.1 q.1 cc hcc]
    · rw [hq2]
      exact hk

theorem process_counts_assigned (l : Line) (s : AppState)
    (h : CountsAssigned s) : CountsAssigned (process_message l s).1 := by
  cases l with
  | malformed => exact h
  | json v =>
      cases v with
      | obj f =>
          simp only [process_message]
          by_cases hk : hashable (keywordOf f) = true
          · by_cases ha : hashable (authorOf f) = true
            · simp only [hk, ha, if_true]
              rcases hu : update_chart_all
                  ⟨bumpCounts s.keyword_counts_by_author (authorOf f)
                    (keywordOf f), (color_for (keywordOf f) s.colors).2⟩
                with ⟨ro, s3⟩
              have h2 : CountsAssigned
                  ⟨bumpCounts s.keyword_counts_by_author (authorOf f)
                    (keywordOf f), (color_for (keywordOf f) s.colors).2⟩ :=
                bump_assigned s.keyword_counts_by_author s.colors _
                  (authorOf f) (keywordOf f) h
                  (color_for_le (keywordOf f) s.colors)
                  (color_for_assigns (keywordOf f) s.colors)
              have h3 : CountsAssigned s3 := by
                refine counts_assigned_mono _ s3 ?_ ?_ h2
                · have := update_chart_counts
                    ⟨bumpCounts s.keyword_counts_by_author (authorOf f)
                      (keywordOf f), (color_for (keywordOf f) s.colors).2⟩
                  rwa [hu] at this
                · have := update_chart_le
                    ⟨bumpCounts s.keyword_counts_by_author (authorOf f)
                      (keywordOf f), (color_for (keywordOf f) s.colors).2⟩
                  rwa [hu] at this
              cases ro <;> simp [hu] <;> exact h3
            · simp [hk, ha]
              exact counts_assigned_mono s _ rfl
                (color_for_le (keywordOf f) s.colors) h
          · simp [hk]
            exact h
      | null => exact h
      | bool b => exact h
      | num n => exact h
      | str t => exact h
      | arr l => exact h

theorem processAll_counts_assigned (lines : List Line) (s s' : AppState)
    (e : Option PyErr) (h0 : CountsAssigned s)
    (h : processAll lines s = (s', e)) : CountsAssigned s' := by
  induction lines generalizing s with
  | nil =>
      simp [processAll] at h
      rw [← h.1]
      exact h0
  | cons l rest ih =>
      rcases hp : process_message l s with ⟨s1, e1⟩
      have h1 : CountsAssigned s1 := by
        have := process_counts_assigned l s h0
        rwa [hp] at this
      cases e1 with
      | none => exact ih s1 h1 (by simpa [processAll, hp] using h)
      | some err =>
          simp [processAll, hp] at h
          rw [← h.1]
          exact h1

theorem mem_allKeywordsOf (c : List (JValue × List (JValue × Nat)))
    (kw : JValue) :
    kw ∈ allKeywordsOf c ↔ ∃ p ∈ c, ∃ q ∈ p.2, q.1 = kw := by
  unfold allKeywordsOf
  rw [List.mem_dedup, List.mem_flatten]
  constructor
  · rintro ⟨l, hl, hkw⟩
    rw [List.mem_map] at hl
    obtain ⟨p, hp, rfl⟩ := hl
    rw [List.mem_map] at hkw
    obtain ⟨q, hq, rfl⟩ := hkw
    exact ⟨p, hp, q, hq, rfl⟩
  · rintro ⟨p, hp, q, hq, rfl⟩
    exact ⟨p.2.map Prod.fst, List.mem_map_of_mem _ hp,
      List.mem_map_of_mem _ hq⟩

theorem count_eq_one_of_mem_beq {α : Type} [BEq α] [LawfulBEq α] {a : α}
    {l : List α} (hnd : l.Nodup) (hm : a ∈ l) : l.count a = 1 := by
  induction l with
  | nil => simp at hm
  | cons b t ih =>
      rw [List.count_cons]
      rcases List.mem_cons.mp hm with rfl | hm'
      · have hnt : a ∉ t := (List.nodup_cons.mp hnd).1
        rw [List.count_eq_zero.mpr hnt]
        simp
      · have hab : (b == a) = false := by
          have hne : b ≠ a := fun he => (List.nodup_cons.mp hnd).1 (he ▸ hm')
          simpa [beq_eq_false_iff_ne] using hne
        rw [ih (List.nodup_cons.mp hnd).2 hm', hab]
        simp

/-- C4: in every reachable state, every keyword that has entered the
aggregate state appears exactly once as a key of `keyword_color` and
exactly once as a key of `assign_rank` (assigned at first sight); calling
`color_for` on an already-assigned keyword returns the stored color and
leaves the state unchanged; and processing any further line preserves
every existing color and rank entry. -/
theorem keyword_assignment_stable (lines : List Line) (s : AppState)
    (e : Option PyErr) (h : processAll lines initState = (s, e)) :
    (∀ kw, kw ∈ allKeywordsOf s.keyword_counts_by_author →
       (s.colors.keyword_color.map Prod.fst).count kw = 1 ∧
       (s.colors.assign_rank.map Prod.fst).count kw = 1) ∧
    (∀ kw c, s.colors.keyword_color.lookup kw = some c →
       color_for kw s.colors = (c, s.colors)) ∧
    (∀ (l : Line) (kw : JValue) (c : String) (r : Nat),
       s.colors.keyword_color.lookup kw = some c →
       s.colors.assign_rank.lookup kw = some r →
       (process_message l s).1.colors.keyword_color.lookup kw = some c ∧
       (process_message l s).1.colors.assign_rank.lookup kw = some r) := by
  have hinv : ColorInv s.colors :=
    processAll_inv lines initState s e ⟨[], by simp [colorsFrom, ranksFrom], rfl, rfl⟩ h
  have hca : CountsAssigned s :=
    processAll_counts_assigned lines initState s e
      (by intro p hp; simp [initState] at hp) h
  obtain ⟨kws, hnd, hc, hr⟩ := hinv
  refine ⟨?_, ?_, ?_⟩
  · intro kw hkw
    obtain ⟨p, hp, q, hq, rfl⟩ := (mem_allKeywordsOf _ kw).mp hkw
    obtain ⟨cc, hcc⟩ := Option.isSome_iff_exists.mp (hca p hp q hq)
    have hmem : q.1 ∈ kws := by
      have h1 := lookup_mem _ _ _ hcc
      rw [hc] at h1
      have h2 := List.mem_map_of_mem Prod.fst h1
      rwa [map_fst_colorsFrom] at h2
    constructor
    · rw [hc, map_fst_colorsFrom]
      exact count_eq_one_of_mem_beq hnd hmem
    · rw [hr, map_fst_ranksFrom]
      exact count_eq_one_of_mem_beq hnd hmem
  · intro kw c hkc
    unfold color_for
    rw [hkc]
  · intro l kw c r hkc hkr
    exact ⟨(process_le l s).1 kw c hkc, (process_le l s).2 kw r hkr⟩

/-- Witness for C4 on the spec's example run. -/
theorem keyword_assignment_stable_witness :
    ((processAll exLines initState).1.colors.keyword_color.map
        Prod.fst).count (.str "x") = 1 ∧
    ((processAll exLines initState).1.colors.assign_rank.map
        Prod.fst).count (.str "x") = 1 ∧
    color_for (.str "x") (processAll exLines initState).1.colors =
      (PALETTE.getD 0 "", (processAll exLines initState).1.colors) := by
  have h := keyword_assignment_stable exLines
    (processAll exLines initState).1 (processAll exLines initState).2 (by rfl)
  refine ⟨(h.1 (.str "x") (by decide)).1, (h.1 (.str "x") (by decide)).2, ?_⟩
  exact h.2.1 (.str "x") (PALETTE.getD 0 "") (by rfl)

/-- C5: in every reachable state the two assignment dicts list the same
keywords, in first-sight order, with the `j`-th distinct keyword holding
rank `j` and color `PALETTE[j mod 9]` (`PALETTE` has 9 entries, so slots
wrap once the palette is exhausted); in particular a keyword of rank `i`
has color `PALETTE[i mod len(PALETTE)]`. -/
theorem palette_slot_assignment (lines : List Line) (s : AppState)
    (e : Option PyErr) (h : processAll lines initState = (s, e)) :
    PALETTE.length = 9 ∧
    s.colors.keyword_color.length = s.colors.assign_rank.length ∧
    (∀ (j : Nat) (p : JValue × Nat),
       s.colors.assign_rank.get? j = some p → p.2 = j) ∧
    (∀ (j : Nat) (p : JValue × String),
       s.colors.keyword_color.get? j = some p →
       p.2 = PALETTE.getD (j % PALETTE.length) "") ∧
    (∀ (j : Nat) (p : JValue × String) (q : JValue × Nat),
       s.colors.keyword_color.get? j = some p →
       s.colors.assign_rank.get? j = some q → p.1 = q.1) ∧
    (∀ (kw : JValue) (i : Nat), s.colors.assign_rank.lookup kw = some i →
       s.colors.keyword_color.lookup kw =
         some (PALETTE.getD (i % PALETTE.length) "")) := by
  have hinv : ColorInv s.colors :=
    processAll_inv lines initState s e ⟨[], by simp [colorsFrom, ranksFrom], rfl, rfl⟩ h
  obtain ⟨kws, hnd, hc, hr⟩ := hinv
  refine ⟨rfl, ?_, ?_, ?_, ?_, ?_⟩
  · rw [hc, hr, length_colorsFrom, length_ranksFrom]
  · intro j p hp
    rw [hr] at hp
    obtain ⟨hj, hget⟩ := List.get?_eq_some.mp hp
    rw [← hget, get_ranksFrom]
    omega
  · intro j p hp
    rw [hc] at hp
    obtain ⟨hj, hget⟩ := List.get?_eq_some.mp hp
    rw [← hget, get_colorsFrom]
    simp
  · intro j p q hp hq
    rw [hc] at hp
    rw [hr] at hq
    obtain ⟨hj, hget⟩ := List.get?_eq_some.mp hp
    obtain ⟨hj', hget'⟩ := List.get?_eq_some.mp hq
    have hl : j < kws.length := by rwa [length_colorsFrom] at hj
    rw [← hget, ← hget', get_fst_colorsFrom 0 j kws hj hl,
      get_fst_ranksFrom 0 j kws hj' hl]
  · intro kw i hkwi
    rw [hr] at hkwi
    rw [hc]
    exact lookup_ranksFrom_color 0 kws kw i hkwi

/-- Witness for C5 on the spec's example run: `x` is the 0th distinct
keyword and `(none)` the 1st, which receives `PALETTE[1]`. -/
theorem palette_slot_assignment_witness :
    PALETTE.length = 9 ∧
    (processAll exLines initState).1.colors.keyword_color.lookup
        (.str "(none)") = some (PALETTE.getD (1 % PALETTE.length) "") := by
  have h := palette_slot_assignment exLines
    (processAll exLines initState).1 (processAll exLines initState).2 (by rfl)
  exact ⟨h.1, h.2.2.2.2.2 (.str "(none)") 1 (by rfl)⟩

theorem update_chart_some (s : AppState) (r : Render) (s2 : AppState)
    (h : update_chart_all s = (some r, s2)) :
    ∃ authors, pySorted (s.keyword_counts_by_author.map Prod.fst)
        = some authors ∧
      ((authors.isEmpty = true ∧ r = ⟨[], [], [], []⟩ ∧ s2 = s) ∨
       (authors.isEmpty = false ∧
        s2 = ⟨s.keyword_counts_by_author, chartColors s⟩ ∧
        r = ⟨authors, stackOrderOf s,
             (stackOrderOf s).map (fun kw =>
               (kw, authors.map (fun a =>
                 (((s.keyword_counts_by_author.lookup a).getD []).lookup
                   kw).getD 0))),
             (stackOrderOf s).reverse⟩)) := by
  unfold update_chart_all at h
  rcases hp : pySorted (s.keyword_counts_by_author.map Prod.fst)
    with _ | authors
  · rw [hp] at h
    simp at h
  · rw [hp] at h
    refine ⟨authors, rfl, ?_⟩
    by_cases he : authors.isEmpty
    · simp only [he, if_true] at h
      simp at h
      exact Or.inl ⟨he, h.1.symm, h.2.symm⟩
    · simp only [he, if_false, Bool.false_eq_true, LEGEND_TOP_FIRST,
        if_true] at h
      simp at h
      exact Or.inr ⟨by simpa using he, h.2.symm, h.1.symm⟩

theorem none_not_mem_sorted_part (s : AppState) :
    JValue.str "(none)" ∉
      List.insertionSort
        (fun a b => rkey (chartColors s) a ≤ rkey (chartColors s) b)
        ((allKeywordsOf s.keyword_counts_by_author).filter
          (fun k => k != JValue.str "(none)")) := by
  intro hmem
  have h2 := (List.perm_insertionSort _ _).mem_iff.mp hmem
  have h3 := List.of_mem_filter h2
  simp at h3

/-- C6: whenever the `"(none)"` category is among a render's keyword set,
it occupies the last position of the stack order, and the legend lists
the keywords in reverse stack order (`LEGEND_TOP_FIRST` is set), so that
`"(none)"` — the topmost stack segment — is its first (topmost) entry,
i.e. last in bottom-to-top legend order, regardless of its numeric
rank. -/
theorem none_category_last (s : AppState) (r : Render) (s2 : AppState)
    (h : update_chart_all s = (some r, s2))
    (hn : JValue.str "(none)" ∈ r.stackOrder) :
    r.stackOrder.getLast? = some (JValue.str "(none)") ∧
    r.legendOrder = r.stackOrder.reverse ∧
    r.legendOrder.head? = some (JValue.str "(none)") := by
  obtain ⟨authors, hp, hcase⟩ := update_chart_some s r s2 h
  rcases hcase with ⟨he, hr, hs⟩ | ⟨he, hs, hr⟩
  · rw [hr] at hn
    simp at hn
  · subst hr
    simp only at hn ⊢
    have hc : (allKeywordsOf s.keyword_counts_by_author).contains
        (JValue.str "(none)") = true := by
      unfold stackOrderOf at hn
      by_cases hcc : (allKeywordsOf s.keyword_counts_by_author).contains
          (JValue.str "(none)") = true
      · exact hcc
      · rw [if_neg hcc] at hn
        exact absurd hn (none_not_mem_sorted_part s)
    have hstack : stackOrderOf s =
        List.insertionSort
          (fun a b => rkey (chartColors s) a ≤ rkey (chartColors s) b)
          ((allKeywordsOf s.keyword_counts_by_author).filter
            (fun k => k != JValue.str "(none)")) ++ [JValue.str "(none)"] := by
      unfold stackOrderOf
      rw [if_pos hc]
    refine ⟨?_, by trivial, ?_⟩
    · show (stackOrderOf s).getLast? = some (JValue.str "(none)")
      rw [hstack]
      exact List.getLast?_concat _
    · show (stackOrderOf s).reverse.head? = some (JValue.str "(none)")
      rw [List.head?_reverse, hstack]
      exact List.getLast?_concat _

/-- The render drawn after processing the spec's example records. -/
def exRender : Render :=
  ⟨[.str "A", .str "B"],
   [.str "x", .str "(none)"],
   [(.str "x", [2, 0]), (.str "(none)", [0, 1])],
   [.str "(none)", .str "x"]⟩

/-- Witness for C6 on the spec's example render, whose keyword set is
`[x, (none)]`. -/
theorem none_category_last_witness :
    exRender.stackOrder.getLast? = some (JValue.str "(none)") ∧
    exRender.legendOrder = exRender.stackOrder.reverse ∧
    exRender.legendOrder.head? = some (JValue.str "(none)") := by
  have hu : update_chart_all (processAll exLines initState).1 =
      (some exRender,
       (update_chart_all (processAll exLines initState).1).2) := by rfl
  exact none_category_last (processAll exLines initState).1 exRender
    (update_chart_all (processAll exLines initState).1).2 hu (by decide)

theorem charListLe_total (a b : List Char) :
    charListLe a b = true ∨ charListLe b a = true := by
  induction a generalizing b with
  | nil => left; rfl
  | cons x xs ih =>
      cases b with
      | nil => right; rfl
      | cons y ys =>
          by_cases h1 : x.val.toNat < y.val.toNat
          · left; simp [charListLe, h1]
          · by_cases h2 : y.val.toNat < x.val.toNat
            · right; simp [charListLe, h2]
            · rcases ih ys with h | h
              · left; simp [charListLe, h1, h2, h]
              · right; simp [charListLe, h1, h2, h]

theorem charListLe_trans (a b c : List Char) (h1 : charListLe a b = true)
    (h2 : charListLe b c = true) : charListLe a c = true := by
  induction a generalizing b c with
  | nil => rfl
  | cons x xs ih =>
      cases b with
      | nil => simp [charListLe] at h1
      | cons y ys =>
          cases c with
          | nil => simp [charListLe] at h2
          | cons z zs =>
              by_cases hxy : x.val.toNat < y.val.toNat <;>
                by_cases hyz : y.val.toNat < z.val.toNat
              · simp [charListLe, show x.val.toNat < z.val.toNat from by omega]
              · by_cases hzy : z.val.toNat < y.val.toNat
                · simp [charListLe, hyz, hzy] at h2
                · simp [charListLe,
                    show x.val.toNat < z.val.toNat from by omega]
              · by_cases hyx : y.val.toNat < x.val.toNat
                · simp [charListLe, hxy, hyx] at h1
                · simp [charListLe,
                    show x.val.toNat < z.val.toNat from by omega]
              · by_cases hyx : y.val.toNat < x.val.toNat
                · simp [charListLe, hxy, hyx] at h1
                · by_cases hzy : z.val.toNat < y.val.toNat
                  · simp [charListLe, hyz, hzy] at h2
                  · have hxz : ¬x.val.toNat < z.val.toNat := by omega
                    have hzx : ¬z.val.toNat < x.val.toNat := by omega
                    simp only [charListLe, if_neg hxy, if_neg hyx] at h1
                    simp only [charListLe, if_neg hyz, if_neg hzy] at h2
                    simp only [charListLe, if_neg hxz, if_neg hzx]
                    exact ih ys zs h1 h2

theorem strLe_total (a b : String) : strLe a b = true ∨ strLe b a = true :=
  charListLe_total a.data b.data

theorem strLe_trans (a b c : String) (h1 : strLe a b = true)
    (h2 : strLe b c = true) : strLe a c = true :=
  charListLe_trans a.data b.data c.data h1 h2

theorem pySorted_perm (l l' : List JValue) (h : pySorted l = some l') :
    l'.Perm l := by
  unfold pySorted at h
  by_cases h1 : l.length ≤ 1
  · rw [if_pos h1] at h
    rw [← Option.some.inj h]
  · rw [if_neg h1] at h
    by_cases h2 : l.all (fun v => (strVal v).isSome) = true
    · rw [if_pos h2] at h
      rw [← Option.some.inj h]
      exact List.perm_insertionSort _ l
    · rw [if_neg h2] at h
      by_cases h3 : l.all (fun v => (numVal v).isSome) = true
      · rw [if_pos h3] at h
        rw [← Option.some.inj h]
        exact List.perm_insertionSort _ l
      · rw [if_neg h3] at h
        exact absurd h (by simp)

theorem pySorted_sorted_strings (l l' : List JValue)
    (h : pySorted l = some l')
    (hstr : ∀ a ∈ l, (strVal a).isSome = true) :
    l'.Pairwise
      (fun a b => strLe ((strVal a).getD "") ((strVal b).getD "") = true) := by
  unfold pySorted at h
  by_cases h1 : l.length ≤ 1
  · rw [if_pos h1] at h
    rw [← Option.some.inj h]
    rcases l with _ | ⟨a, _ | ⟨b, t⟩⟩
    · exact List.Pairwise.nil
    · simp
    · simp at h1
  · rw [if_neg h1] at h
    have h2 : l.all (fun v => (strVal v).isSome) = true := by
      rw [List.all_eq_true]
      exact hstr
    rw [if_pos h2] at h
    rw [← Option.some.inj h]
    letI : IsTotal JValue
        (fun a b => strLe ((strVal a).getD "") ((strVal b).getD "") = true) :=
      ⟨fun a b => strLe_total _ _⟩
    letI : IsTrans JValue
        (fun a b => strLe ((strVal a).getD "") ((strVal b).getD "") = true) :=
      ⟨fun a b c => strLe_trans _ _ _⟩
    exact List.sorted_insertionSort _ l

theorem stackOrderOf_filter (s : AppState) :
    (stackOrderOf s).filter (fun k => k != JValue.str "(none)") =
      List.insertionSort
        (fun a b => rkey (chartColors s) a ≤ rkey (chartColors s) b)
        ((allKeywordsOf s.keyword_counts_by_author).filter
          (fun k => k != JValue.str "(none)")) := by
  have hself : List.filter (fun k => k != JValue.str "(none)")
      (List.insertionSort
        (fun a b => rkey (chartColors s) a ≤ rkey (chartColors s) b)
        ((allKeywordsOf s.keyword_counts_by_author).filter
          (fun k => k != JValue.str "(none)"))) =
      List.insertionSort
        (fun a b => rkey (chartColors s) a ≤ rkey (chartColors s) b)
        ((allKeywordsOf s.keyword_counts_by_author).filter
          (fun k => k != JValue.str "(none)")) := by
    rw [List.filter_eq_self]
    intro a ha
    have ha2 : a ∈ (allKeywordsOf s.keyword_counts_by_author).filter
        (fun k => k != JValue.str "(none)") :=
      (List.perm_insertionSort _ _).mem_iff.mp ha
    simpa using List.of_mem_filter ha2
  unfold stackOrderOf
  by_cases hc : (allKeywordsOf s.keyword_counts_by_author).contains
      (JValue.str "(none)") = true
  · rw [if_pos hc, List.filter_append, hself]
    simp
  · rw [if_neg hc, hself]

/-- C7: every produced render lists the x-axis author categories as a
permutation of the authors in the aggregate state, sorted (for string
authors, lexicographically by code point — Python string comparison);
stacks the non-`"(none)"` keyword segments in ascending order of their
assigned rank; and draws height `counts[a].get(kw, 0)` for keyword `kw`
over author `a`, which is zero whenever the keyword is absent from that
author's counts. -/
theorem render_layout (s : AppState) (r : Render) (s2 : AppState)
    (h : update_chart_all s = (some r, s2)) :
    r.authors.Perm (s.keyword_counts_by_author.map Prod.fst) ∧
    ((∀ a ∈ s.keyword_counts_by_author.map Prod.fst,
        (strVal a).isSome = true) →
      r.authors.Pairwise
        (fun a b => strLe ((strVal a).getD "") ((strVal b).getD "") = true)) ∧
    (r.stackOrder.filter (fun k => k != JValue.str "(none)")).Pairwise
      (fun a b => rkey s2.colors a ≤ rkey s2.colors b) ∧
    (∀ kw hs, (kw, hs) ∈ r.bars →
      hs.length = r.authors.length ∧
      ∀ (i : Nat) (hi : i < hs.length) (hi2 : i < r.authors.length),
        hs.get ⟨i, hi⟩ = countIn s (r.authors.get ⟨i, hi2⟩) kw ∧
        (presentIn s (r.authors.get ⟨i, hi2⟩) kw = false →
          hs.get ⟨i, hi⟩ = 0)) := by
  obtain ⟨authors, hp, hcase⟩ := update_chart_some s r s2 h
  rcases hcase with ⟨he, hr, hs2⟩ | ⟨he, hs2, hr⟩
  · subst hr
    subst hs2
    refine ⟨?_, ?_, ?_, ?_⟩
    · have ha : authors = [] := List.isEmpty_iff.mp he
      have hperm := pySorted_perm _ _ hp
      rw [ha] at hperm
      exact hperm
    · intro _
      exact List.Pairwise.nil
    · exact List.Pairwise.nil
    · intro kw hs hmem
      simp at hmem
  · subst hr
    subst hs2
    refine ⟨?_, ?_, ?_, ?_⟩
    · exact pySorted_perm _ _ hp
    · intro hstr
      exact pySorted_sorted_strings _ _ hp hstr
    · show ((stackOrderOf s).filter
          (fun k => k != JValue.str "(none)")).Pairwise
        (fun a b => rkey (chartColors s) a ≤ rkey (chartColors s) b)
      rw [stackOrderOf_filter]
      letI : IsTotal JValue
          (fun a b => rkey (chartColors s) a ≤ rkey (chartColors s) b) :=
        ⟨fun a b => Nat.le_total _ _⟩
      letI : IsTrans JValue
          (fun a b => rkey (chartColors s) a ≤ rkey (chartColors s) b) :=
        ⟨fun a b c h1 h2 => le_trans h1 h2⟩
      exact List.sorted_insertionSort _ _
    · intro kw hs hmem
      rw [show (Render.mk authors (stackOrderOf s)
          ((stackOrderOf s).map (fun kw =>
            (kw, authors.map (fun a =>
              (((s.keyword_counts_by_author.lookup a).getD []).lookup
                kw).getD 0))))
          ((stackOrderOf s).reverse)).bars =
        (stackOrderOf s).map (fun kw =>
            (kw, authors.map (fun a =>
              (((s.keyword_counts_by_author.lookup a).getD []).lookup
                kw).getD 0))) from rfl, List.mem_map] at hmem
      obtain ⟨kw', hkw', heq⟩ := hmem
      have hkweq : kw' = kw := congrArg Prod.fst heq
      subst hkweq
      have hhs : hs = authors.map (fun a =>
          (((s.keyword_counts_by_author.lookup a).getD []).lookup
            kw').getD 0) := (congrArg Prod.snd heq).symm
      subst hhs
      refine ⟨by rw [List.length_map], ?_⟩
      intro i hi hi2
      constructor
      · rw [List.get_map]
        rfl
      · intro hpres
        rw [List.get_map]
        have hpres2 : (((s.keyword_counts_by_author.lookup
            (authors.get ⟨i, hi2⟩)).getD []).lookup kw').isSome = false :=
          hpres
        have hnone : ((s.keyword_counts_by_author.lookup
            (authors.get ⟨i, hi2⟩)).getD []).lookup kw' = none := by
          cases hl : ((s.keyword_counts_by_author.lookup
              (authors.get ⟨i, hi2⟩)).getD []).lookup kw' with
          | none => rfl
          | some v => rw [hl] at hpres2; simp at hpres2
        show (((s.keyword_counts_by_author.lookup
            (authors.get ⟨i, hi2⟩)).getD []).lookup kw').getD 0 = 0
        rw [hnone]
        rfl

/-- Witness for C7 on the spec's example render: authors `[A, B]` sorted,
a permutation of the aggregate's author keys, stack ranks ascending, and
the bar rows as long as the author axis. -/
theorem render_layout_witness :
    exRender.authors.Perm
      ((processAll exLines initState).1.keyword_counts_by_author.map
        Prod.fst) ∧
    exRender.authors.Pairwise
      (fun a b => strLe ((strVal a).getD "") ((strVal b).getD "") = true) ∧
    (exRender.stackOrder.filter
        (fun k => k != JValue.str "(none)")).Pairwise
      (fun a b =>
        rkey (update_chart_all (processAll exLines initState).1).2.colors a ≤
          rkey (update_chart_all
            (processAll exLines initState).1).2.colors b) ∧
    ([2, 0] : List Nat).length = exRender.authors.length := by
  have h := render_layout (processAll exLines initState).1 exRender
    (update_chart_all (processAll exLines initState).1).2 (by rfl)
  exact ⟨h.1, h.2.1 (by decide), h.2.2.1,
    (h.2.2.2 (.str "x") [2, 0] (by decide)).1⟩
